import Mathlib

/-!
Verification of the normalization baseline and POS-evaluation pipeline of the
repository processing-non-standard-language (src/baseline.py, src/evaluation.py).

The Python code is shallowly embedded: lines of the tab-separated corpora are
modelled at the record level (a parsed line is either a blank sentence-boundary
sentinel or a tuple of column strings), Python dictionaries built by the code
are modelled as insertion-ordered association lists (the observable behaviour
of CPython 3.7+ dicts), and operations that can raise (IndexError on list
access, ValueError from max() on an empty sequence, ZeroDivisionError) return
Option, with none modelling the raised exception.
-/

/-! ## Generic first-seen deduplication (observable behaviour of insertion-ordered dicts) -/

/-- The distinct elements of a list in order of first occurrence, with an
accumulator of already-seen elements.  This is the key order produced by
iterating a Python dict or collections.Counter built by successive insertion. -/
def firstSeenAux {α : Type} [DecidableEq α] (seen : List α) : List α → List α
  | [] => []
  | x :: xs => if x ∈ seen then firstSeenAux seen xs else x :: firstSeenAux (x :: seen) xs

/-- The distinct elements of a list in order of first occurrence. -/
def firstSeen {α : Type} [DecidableEq α] (l : List α) : List α := firstSeenAux [] l

/-! ## baseline.py, step 1: translation dictionary from train.txt -/

/-- One element of the word_pair_list built by get_tuples (baseline.py lines 22-35):
a training line is either the one-character string consisting of a newline
(a blank line, kept to preserve sentence boundaries) or the tuple of its first
two tab-separated columns (non-standard form, gold-standard normalization). -/
inductive Tok where
  | blank : Tok
  | pair (nonStandard norm : String) : Tok
deriving DecidableEq, Repr

/-- get_norm_freq (baseline.py lines 38-47): collections.Counter over the word
pair list.  Modelled by its observable behaviour: the distinct elements in
first-seen order, each with its total multiplicity in the input. -/
def counterList (ts : List Tok) : List (Tok × Nat) :=
  (firstSeen ts).map (fun x => (x, ts.count x))

/-- The string Python obtains from item[0] for a key of the counter:
for a (non-standard, normalization) tuple this is the non-standard form;
for the blank-line string it is its first character, which is again the
one-character newline string (string indexing raises no IndexError here). -/
def keyStr : Tok → String
  | Tok.blank => "\n"
  | Tok.pair a _ => a

/-- The keys of the dictionary d built by the first loop of translation_dict
(baseline.py lines 59-64): item[0] of every counter key, deduplicated in
first-seen order (re-assigning an existing Python dict key keeps its position). -/
def tdKeys (cnt : List (Tok × Nat)) : List String :=
  firstSeen (cnt.map (fun p => keyStr p.1))

/-- The contribution of one counter item to the value list of key k in the
second loop of translation_dict (baseline.py lines 69-77): a tuple item with
matching first component contributes (normalization, frequency); the blank-line
string raises IndexError at item[1], which the except clause turns into no
contribution. -/
def tdEntry (k : String) : Tok × Nat → Option (String × Nat)
  | (Tok.blank, _) => none
  | (Tok.pair a b, c) => if a == k then some (b, c) else none

/-- The value list of key k in translation_dict: the (normalization, frequency)
pairs of all counter items whose first component equals k, in counter order. -/
def tdValue (cnt : List (Tok × Nat)) (k : String) : List (String × Nat) :=
  cnt.filterMap (tdEntry k)

/-- translation_dict (baseline.py lines 50-78) as an insertion-ordered
association list: keys in first-seen order of item[0] over the counter keys,
each mapped to its list of (normalization, frequency) pairs. -/
def translation_dict (ts : List Tok) : List (String × List (String × Nat)) :=
  (tdKeys (counterList ts)).map (fun k => (k, tdValue (counterList ts) k))

/-! ## baseline.py, step 2: normalization of dev/test records -/

/-- A parsed line of the file to normalize: blank, or its first three
tab-separated columns (non-standard, gold-standard normalization, POS). -/
inductive DevTok where
  | blank : DevTok
  | record (nonStandard standard pos : String) : DevTok
deriving DecidableEq, Repr

/-- One output line written by normalize: a blank line, or the five columns
strategy, non-standard, predicted normalization, gold standard, POS. -/
inductive OutRec where
  | blank : OutRec
  | record (strategy nonStandard pred standard pos : String) : OutRec
deriving DecidableEq, Repr

/-- Python dict lookup on an insertion-ordered association list with distinct
keys: the value of the first (only) matching key, if any. -/
def dictLookup {α : Type} (d : List (String × α)) (k : String) : Option α :=
  (d.find? (fun p => p.1 == k)).map (fun p => p.2)

/-- Python max(list_tuples, key=lambda x: x[1]) (baseline.py line 112):
a left fold keeping the current best and replacing it only on a strictly
greater key, so the first element with maximal frequency wins; max() of an
empty sequence raises ValueError, modelled as none. -/
def pyMaxBy (l : List (String × Nat)) : Option (String × Nat) :=
  match l with
  | [] => none
  | x :: xs => some (xs.foldl (fun b y => if b.2 < y.2 then y else b) x)

/-- The body of the per-line loop of normalize (baseline.py lines 90-121):
blank lines pass through; otherwise the non-standard form is looked up in the
translation dictionary; a singleton candidate list gives strategy U with that
candidate, any other present list gives strategy A with the most frequent
candidate (none models the ValueError of max() on an empty list), and an
absent key gives strategy N with the non-standard form itself. -/
def normalizeLine (d : List (String × List (String × Nat))) : DevTok → Option OutRec
  | DevTok.blank => some OutRec.blank
  | DevTok.record ns st pos =>
    match dictLookup d ns with
    | some list_tuples =>
      match list_tuples with
      | [t] => some (OutRec.record "U" ns t.1 st pos)
      | l => (pyMaxBy l).map (fun c => OutRec.record "A" ns c.1 st pos)
    | none => some (OutRec.record "N" ns ns st pos)

/-- The output lines of normalize for a list of input records, in order;
none models an uncaught exception aborting the run. -/
def normalizeList (d : List (String × List (String × Nat))) : List DevTok → Option (List OutRec)
  | [] => some []
  | t :: ts =>
    match normalizeLine d t with
    | none => none
    | some r => (normalizeList d ts).map (fun rs => r :: rs)

/-- normalize (baseline.py lines 83-123): build the translation dictionary from
the training records and emit one output record per input record. -/
def normalize_records (tokens_train : List Tok) (tokens_dev_or_test : List DevTok) :
    Option (List OutRec) :=
  normalizeList (translation_dict tokens_train) tokens_dev_or_test

/-! ## evaluation.py: token alignment (correct_pos) -/

/-- Python str.split() with no argument (used as len(word.split()) in
correct_pos): split on runs of whitespace, discarding empty pieces. -/
def pySplit (s : String) : List String :=
  ((s.toList.splitOnP Char.isWhitespace).map (fun cs => String.mk cs)).filter (fun t => t != "")

/-- Python str.startswith on a one-character prefix (used on the raw lines in
calculate_accuracies): the prefix's characters open the string's characters. -/
def pyStartsWith (s pre : String) : Bool := pre.toList.isPrefixOf s.toList

/-- One element of the flat tagger-output stream predicted_POS built by
predict_pos (evaluation.py lines 110-127): a (surface, tag) tuple, or the
newline string appended after each sentence as a boundary sentinel. -/
inductive PTok where
  | sent : PTok
  | tok (word tag : String) : PTok
deriving DecidableEq, Repr

/-- Reading predicted_POS[i][0] and predicted_POS[i][1]: an out-of-range index
raises IndexError, and the sentinel string raises IndexError at position 1;
both are modelled as none. -/
def getEntry (ps : List PTok) (i : Nat) : Option (String × String) :=
  match ps[i]? with
  | some (PTok.tok w t) => some (w, t)
  | some PTok.sent => none
  | none => none

/-- One element of the correct_POS list built by correct_pos: the newline
string for a blank reference token, or a (merged word, merged tag) tuple. -/
inductive CTok where
  | newline : CTok
  | entry (word tag : String) : CTok
deriving DecidableEq, Repr

/-- The hardcoded exception dictionary d of correct_pos (evaluation.py lines
148-162): surface forms that spaCy splits although the input keeps them as a
single token, each mapped to its fixed tag and the number of tagger tokens it
consumes. -/
def exceptionTable : List (String × String × Nat) :=
  [("!!!", ("$.", 3)),
   ("!!", ("$.", 2)),
   ("!!!!!", ("$.", 5)),
   ("??", ("$.", 2)),
   ("?!", ("$.", 2)),
   ("*_*", ("EMO", 3)),
   (";P", ("EMO", 2)),
   (":\\", ("$.", 2)),
   ("evt.", ("ADV", 2)),
   ("[StreetAddress]", ("NN", 3)),
   ("[LastName]", ("NN", 3)),
   ("*google*", ("NE", 3)),
   ("Z.b.", ("NN", 2))]

/-- Membership test and lookup in the exception dictionary. -/
def lookupExc (w : String) : Option (String × Nat) :=
  (exceptionTable.find? (fun p => p.1 == w)).map (fun p => p.2)

/-- The main loop of correct_pos (evaluation.py lines 168-215) over the
original reference tokens, with cursor i into the flat tagger stream ps:
a blank token emits the newline marker and advances the cursor by 1; a
single-word token either matches the exception dictionary (emit its fixed tag,
advance by its consumption count) or takes the tagger entry at the cursor and
advances by 1; a token of 2, 3 or 4 whitespace-delimited words consumes that
many tagger entries, joining words and tags with a plus sign; a token of 5 or
more words matches no branch, emitting nothing and leaving the cursor
unchanged.  none models an IndexError from reading the tagger stream. -/
def alignLoop (ps : List PTok) : List String → Nat → Option (List CTok)
  | [], _ => some []
  | w :: ws, i =>
    if (pySplit w).length = 0 then
      (alignLoop ps ws (i + 1)).map (fun l => CTok.newline :: l)
    else if (pySplit w).length = 1 then
      match lookupExc w with
      | some tc => (alignLoop ps ws (i + tc.2)).map (fun l => CTok.entry w tc.1 :: l)
      | none =>
        match getEntry ps i with
        | some e => (alignLoop ps ws (i + 1)).map (fun l => CTok.entry e.1 e.2 :: l)
        | none => none
    else if (pySplit w).length = 2 then
      match getEntry ps i, getEntry ps (i + 1) with
      | some e1, some e2 =>
        (alignLoop ps ws (i + 2)).map
          (fun l => CTok.entry (e1.1 ++ "+" ++ e2.1) (e1.2 ++ "+" ++ e2.2) :: l)
      | _, _ => none
    else if (pySplit w).length = 3 then
      match getEntry ps i, getEntry ps (i + 1), getEntry ps (i + 2) with
      | some e1, some e2, some e3 =>
        (alignLoop ps ws (i + 3)).map
          (fun l => CTok.entry (e1.1 ++ "+" ++ e2.1 ++ "+" ++ e3.1)
            (e1.2 ++ "+" ++ e2.2 ++ "+" ++ e3.2) :: l)
      | _, _, _ => none
    else if (pySplit w).length = 4 then
      match getEntry ps i, getEntry ps (i + 1), getEntry ps (i + 2), getEntry ps (i + 3) with
      | some e1, some e2, some e3, some e4 =>
        (alignLoop ps ws (i + 4)).map
          (fun l => CTok.entry (e1.1 ++ "+" ++ e2.1 ++ "+" ++ e3.1 ++ "+" ++ e4.1)
            (e1.2 ++ "+" ++ e2.2 ++ "+" ++ e3.2 ++ "+" ++ e4.2) :: l)
      | _, _, _, _ => none
    else
      alignLoop ps ws i

/-- The tag kept by the final loop of correct_pos (evaluation.py lines 221-231):
the newline string for a boundary marker, otherwise the tag component. -/
def tagOf : CTok → String
  | CTok.newline => "\n"
  | CTok.entry _ t => t

/-- correct_pos (evaluation.py lines 130-233), parameterized by the flat tagger
output stream ps (the result of the opaque spaCy tagger in predict_pos) and the
original reference token list: run the alignment loop from cursor 0, drop the
last element of the aligned list (the slice correct_POS[:-1] at line 218), and
keep only the tags. -/
def correct_pos (ps : List PTok) (orig_tokens : List String) : Option (List String) :=
  (alignLoop ps orig_tokens 0).map (fun l => (l.dropLast).map tagOf)

/-- The in-place mutation performed by extract_sentences (evaluation.py line
91): text.append of a newline extends the caller's token list with a trailing
blank sentinel, and main later passes that same extended list to correct_pos
as orig_tokens. -/
def extendedTokens (text : List String) : List String := text ++ ["\n"]

/-! ## evaluation.py: accuracy calculation (calculate_accuracies) -/

/-- Python str.rstrip() with no argument: remove trailing whitespace. -/
def pyRstrip (s : String) : String :=
  String.mk ((s.toList.reverse.dropWhile Char.isWhitespace).reverse)

/-- A line of the 8-column file read by calculate_accuracies: blank, or the
eight tab-separated columns strategy, non-standard, predicted normalization,
gold normalization, gold POS, lower-bound POS, upper-bound POS, baseline POS
(the last column keeps the trailing newline of the raw line). -/
inductive EvalLine where
  | blank : EvalLine
  | fields (c0 c1 c2 c3 c4 c5 c6 c7 : String) : EvalLine
deriving DecidableEq, Repr

/-- The counters accumulated by calculate_accuracies (evaluation.py lines
268-312): per-strategy totals and per-strategy agreement counts of the gold
POS column against the lower-bound, upper-bound and baseline columns. -/
structure AccCounts where
  nU : Nat := 0
  nA : Nat := 0
  nN : Nat := 0
  uLb : Nat := 0
  uUb : Nat := 0
  uB : Nat := 0
  aLb : Nat := 0
  aUb : Nat := 0
  aB : Nat := 0
  nLb : Nat := 0
  nUb : Nat := 0
  nB : Nat := 0
deriving DecidableEq, Repr

/-- The per-line counting step of calculate_accuracies: a line starting with U,
A or N bumps that strategy's total and its three agreement counters (column 4
against columns 5, 6, and the rstripped column 7); every other line, including
blank lines, is skipped. -/
def countLine (c : AccCounts) : EvalLine → AccCounts
  | EvalLine.blank => c
  | EvalLine.fields c0 _ _ _ c4 c5 c6 c7 =>
    if pyStartsWith c0 "U" then
      { c with nU := c.nU + 1,
               uLb := c.uLb + (if c4 = c5 then 1 else 0),
               uUb := c.uUb + (if c4 = c6 then 1 else 0),
               uB := c.uB + (if c4 = pyRstrip c7 then 1 else 0) }
    else if pyStartsWith c0 "A" then
      { c with nA := c.nA + 1,
               aLb := c.aLb + (if c4 = c5 then 1 else 0),
               aUb := c.aUb + (if c4 = c6 then 1 else 0),
               aB := c.aB + (if c4 = pyRstrip c7 then 1 else 0) }
    else if pyStartsWith c0 "N" then
      { c with nN := c.nN + 1,
               nLb := c.nLb + (if c4 = c5 then 1 else 0),
               nUb := c.nUb + (if c4 = c6 then 1 else 0),
               nB := c.nB + (if c4 = pyRstrip c7 then 1 else 0) }
    else c

/-- round(x, 2) on an accuracy percentage, modelled as exact rational rounding
to two decimal places. -/
def round2 (q : ℚ) : ℚ := (round (q * 100) : ℤ) / 100

/-- One accuracy expression round((same / n) * 100, 2): Python raises
ZeroDivisionError when the strategy total n is zero, modelled as none. -/
def accPct (same n : Nat) : Option ℚ :=
  if n = 0 then none else some (round2 ((same : ℚ) / (n : ℚ) * 100))

/-- The accuracy block of calculate_accuracies (evaluation.py lines 314-341)
over the accumulated counters: the twelve rounded accuracy percentages in the
order the Python code evaluates them; any zero denominator aborts the
computation (ZeroDivisionError), giving none. -/
def accTables (c : AccCounts) :
    Option ((Nat × Nat × Nat × Nat) × (ℚ × ℚ × ℚ × ℚ) × (ℚ × ℚ × ℚ × ℚ) × (ℚ × ℚ × ℚ × ℚ)) :=
  let nTotal := c.nU + c.nA + c.nN
  do
    let lbU ← accPct c.uLb c.nU
    let lbA ← accPct c.aLb c.nA
    let lbN ← accPct c.nLb c.nN
    let lbT ← accPct (c.uLb + c.aLb + c.nLb) nTotal
    let ubU ← accPct c.uUb c.nU
    let ubA ← accPct c.aUb c.nA
    let ubN ← accPct c.nUb c.nN
    let ubT ← accPct (c.uUb + c.aUb + c.nUb) nTotal
    let bU ← accPct c.uB c.nU
    let bA ← accPct c.aB c.nA
    let bN ← accPct c.nB c.nN
    let bT ← accPct (c.uB + c.aB + c.nB) nTotal
    pure ((c.nU, c.nA, c.nN, nTotal), (lbU, lbA, lbN, lbT), (ubU, ubA, ubN, ubT), (bU, bA, bN, bT))

/-- calculate_accuracies (evaluation.py lines 266-341) on the parsed lines of
the 8-column file: accumulate the counters over all lines, then compute the
accuracy tables. -/
def calculate_accuracies (ls : List EvalLine) :
    Option ((Nat × Nat × Nat × Nat) × (ℚ × ℚ × ℚ × ℚ) × (ℚ × ℚ × ℚ × ℚ) × (ℚ × ℚ × ℚ × ℚ)) :=
  accTables (ls.foldl countLine {})

/-! ## Predicates used to state properties of the translation table -/

/-- Whether a training element is a word pair whose non-standard form is k. -/
def tokHasKey (k : String) : Tok → Bool
  | Tok.blank => false
  | Tok.pair a _ => a == k

/-- The normalization component of a word pair (empty for the blank marker). -/
def tokNorm : Tok → String
  | Tok.blank => ""
  | Tok.pair _ b => b

/-- The recorded normalization of a training element when its non-standard
form is k: used to state the first-observed order of candidates. -/
def normFor (k : String) : Tok → Option String
  | Tok.blank => none
  | Tok.pair a b => if a == k then some b else none
/-! ## Properties of first-seen deduplication -/

lemma fsAux_mem {α : Type} [DecidableEq α] (a : α) :
    ∀ (l seen : List α), a ∈ firstSeenAux seen l ↔ a ∈ l ∧ a ∉ seen := by
  intro l
  induction l with
  | nil => intro seen; simp [firstSeenAux]
  | cons x xs ih =>
    intro seen
    by_cases hx : x ∈ seen
    · simp only [firstSeenAux, if_pos hx, ih, List.mem_cons]
      constructor
      · rintro ⟨h1, h2⟩; exact ⟨Or.inr h1, h2⟩
      · rintro ⟨h1 | h1, h2⟩
        · exact absurd (h1 ▸ hx) h2
        · exact ⟨h1, h2⟩
    · simp only [firstSeenAux, if_neg hx, List.mem_cons, ih]
      by_cases hax : a = x
      · subst hax; simp [hx]
      · simp [hax]

lemma fs_mem {α : Type} [DecidableEq α] (a : α) (l : List α) :
    a ∈ firstSeen l ↔ a ∈ l := by
  simp [firstSeen, fsAux_mem]

lemma fsAux_nodup {α : Type} [DecidableEq α] :
    ∀ (l seen : List α), (firstSeenAux seen l).Nodup := by
  intro l
  induction l with
  | nil => intro seen; simp [firstSeenAux]
  | cons x xs ih =>
    intro seen
    by_cases hx : x ∈ seen
    · simpa [firstSeenAux, hx] using ih seen
    · simp only [firstSeenAux, if_neg hx, List.nodup_cons]
      refine ⟨?_, ih _⟩
      rw [fsAux_mem]
      rintro ⟨-, h⟩
      exact h (List.mem_cons_self x seen)

lemma fs_nodup {α : Type} [DecidableEq α] (l : List α) : (firstSeen l).Nodup :=
  fsAux_nodup l []

lemma fsAux_filter {α : Type} [DecidableEq α] (p : α → Bool) :
    ∀ (l seen seen' : List α), (∀ a, p a = true → (a ∈ seen ↔ a ∈ seen')) →
      firstSeenAux seen (l.filter p) = (firstSeenAux seen' l).filter p := by
  intro l
  induction l with
  | nil => intro seen seen' _; simp [firstSeenAux]
  | cons x xs ih =>
    intro seen seen' hss
    by_cases hp : p x = true
    · rw [List.filter_cons_of_pos hp]
      by_cases hx : x ∈ seen
      · have hx' : x ∈ seen' := (hss x hp).mp hx
        simp only [firstSeenAux, if_pos hx, if_pos hx']
        exact ih seen seen' hss
      · have hx' : x ∉ seen' := fun h => hx ((hss x hp).mpr h)
        simp only [firstSeenAux, if_neg hx, if_neg hx', List.filter_cons_of_pos hp]
        congr 1
        refine ih (x :: seen) (x :: seen') (fun a ha => ?_)
        simp only [List.mem_cons, hss a ha]
    · rw [List.filter_cons_of_neg hp]
      by_cases hx' : x ∈ seen'
      · simp only [firstSeenAux, if_pos hx']
        exact ih seen seen' hss
      · simp only [firstSeenAux, if_neg hx', List.filter_cons_of_neg hp]
        refine ih seen (x :: seen') (fun a ha => ?_)
        rw [hss a ha, List.mem_cons]
        constructor
        · exact Or.inr
        · rintro (rfl | h)
          · exact absurd ha hp
          · exact h

lemma fs_filter {α : Type} [DecidableEq α] (p : α → Bool) (l : List α) :
    firstSeen (l.filter p) = (firstSeen l).filter p :=
  fsAux_filter p l [] [] (fun _ _ => Iff.rfl)

lemma fsAux_map {α β : Type} [DecidableEq α] [DecidableEq β] (f : α → β) :
    ∀ (l seen : List α),
      (∀ x ∈ l, ∀ y ∈ l, f x = f y → x = y) →
      (∀ x ∈ l, ∀ s ∈ seen, f x = f s → x = s) →
      (firstSeenAux seen l).map f = firstSeenAux (seen.map f) (l.map f) := by
  intro l
  induction l with
  | nil => intro seen _ _; simp [firstSeenAux]
  | cons x xs ih =>
    intro seen hinj hcross
    by_cases hx : x ∈ seen
    · have hfx : f x ∈ seen.map f := List.mem_map_of_mem f hx
      simp only [List.map_cons, firstSeenAux, if_pos hx, if_pos hfx]
      exact ih seen (fun a ha b hb => hinj a (List.mem_cons_of_mem x ha) b (List.mem_cons_of_mem x hb))
        (fun a ha s hs => hcross a (List.mem_cons_of_mem x ha) s hs)
    · have hfx : f x ∉ seen.map f := by
        intro hmem
        obtain ⟨s, hs, hfs⟩ := List.mem_map.mp hmem
        exact hx (hcross x (List.mem_cons_self x xs) s hs hfs.symm ▸ hs)
      simp only [List.map_cons, firstSeenAux, if_neg hx, if_neg hfx]
      congr 1
      have hmc : firstSeenAux (f x :: List.map f seen) (List.map f xs)
          = firstSeenAux (List.map f (x :: seen)) (List.map f xs) := by rw [List.map_cons]
      rw [hmc]
      refine ih (x :: seen)
        (fun a ha b hb => hinj a (List.mem_cons_of_mem x ha) b (List.mem_cons_of_mem x hb))
        (fun a ha s hs hfa => ?_)
      rcases List.mem_cons.mp hs with rfl | hs'
      · exact hinj a (List.mem_cons_of_mem s ha) s (List.mem_cons_self s xs) hfa
      · exact hcross a (List.mem_cons_of_mem x ha) s hs' hfa

lemma fs_map {α β : Type} [DecidableEq α] [DecidableEq β] (f : α → β) (l : List α)
    (hinj : ∀ x ∈ l, ∀ y ∈ l, f x = f y → x = y) :
    (firstSeen l).map f = firstSeen (l.map f) := by
  have := fsAux_map f l [] hinj (by simp)
  simpa [firstSeen] using this

lemma countP_split_eq {α : Type} [DecidableEq α] (q : α → Bool) (x : α) (hqx : q x = true) :
    ∀ l : List α, l.countP q = l.count x + l.countP (fun a => q a && !(a == x)) := by
  intro l
  induction l with
  | nil => simp
  | cons z zs ih =>
    by_cases hzx : z = x
    · subst hzx
      simp [List.countP_cons, List.count_cons, ih, hqx]
      omega
    · simp [List.countP_cons, List.count_cons, ih, hzx]
      omega

lemma fsAux_countSum {α : Type} [DecidableEq α] (p : α → Bool) :
    ∀ (l seen : List α),
      (((firstSeenAux seen l).filter p).map (fun y => l.count y)).sum
        = l.countP (fun a => p a && decide (a ∉ seen)) := by
  intro l
  induction l with
  | nil => intro seen; simp [firstSeenAux]
  | cons x xs ih =>
    intro seen
    by_cases hx : x ∈ seen
    · rw [show firstSeenAux seen (x :: xs) = firstSeenAux seen xs from by
        simp [firstSeenAux, hx]]
      have hmap : ((firstSeenAux seen xs).filter p).map (fun y => (x :: xs).count y)
          = ((firstSeenAux seen xs).filter p).map (fun y => xs.count y) := by
        refine List.map_congr_left (fun y hy => ?_)
        have hyy : y ∈ firstSeenAux seen xs := List.mem_of_mem_filter hy
        have hns : y ∉ seen := ((fsAux_mem y xs seen).mp hyy).2
        have hyx : x ≠ y := fun h => hns (h ▸ hx)
        simp [List.count_cons, hyx]
      rw [hmap, ih seen, List.countP_cons]
      simp [hx]
    · rw [show firstSeenAux seen (x :: xs) = x :: firstSeenAux (x :: seen) xs from by
        simp [firstSeenAux, hx]]
      have hmap : ((firstSeenAux (x :: seen) xs).filter p).map (fun y => (x :: xs).count y)
          = ((firstSeenAux (x :: seen) xs).filter p).map (fun y => xs.count y) := by
        refine List.map_congr_left (fun y hy => ?_)
        have hyy : y ∈ firstSeenAux (x :: seen) xs := List.mem_of_mem_filter hy
        have hns : y ∉ x :: seen := ((fsAux_mem y xs (x :: seen)).mp hyy).2
        have hyx : x ≠ y := fun h => hns (h ▸ List.mem_cons_self x seen)
        simp [List.count_cons, hyx]
      by_cases hp : p x = true
      · rw [List.filter_cons_of_pos hp, List.map_cons, List.sum_cons, hmap, ih (x :: seen),
          List.countP_cons]
        have hqx : (p x && decide (x ∉ seen)) = true := by simp [hp, hx]
        rw [countP_split_eq (fun a => p a && decide (a ∉ seen)) x hqx xs]
        have hcong : xs.countP (fun a => p a && decide (a ∉ x :: seen))
            = xs.countP (fun a => (p a && decide (a ∉ seen)) && !(a == x)) := by
          refine List.countP_congr (fun a _ => ?_)
          simp only [List.mem_cons, not_or, Bool.and_eq_true, decide_eq_true_eq,
            Bool.not_eq_true', beq_eq_false_iff_ne, ne_eq]
          tauto
        rw [hcong, List.count_cons, if_pos hqx]
        simp only [beq_self_eq_true, if_true]
        omega
      · rw [List.filter_cons_of_neg hp, hmap, ih (x :: seen), List.countP_cons]
        have hcong : xs.countP (fun a => p a && decide (a ∉ x :: seen))
            = xs.countP (fun a => p a && decide (a ∉ seen)) := by
          refine List.countP_congr (fun a _ => ?_)
          by_cases hax : a = x
          · subst hax
            simp only [Bool.and_eq_true, decide_eq_true_eq]
            constructor
            · rintro ⟨h1, -⟩; exact absurd h1 hp
            · rintro ⟨h1, -⟩; exact absurd h1 hp
          · simp [List.mem_cons, hax]
        rw [hcong]
        simp [hp]

lemma fs_countSum {α : Type} [DecidableEq α] (p : α → Bool) (l : List α) :
    (((firstSeen l).filter p).map (fun y => l.count y)).sum = l.countP p := by
  have h := fsAux_countSum p l []
  simpa [firstSeen] using h

/-! ## Structure of the translation dictionary -/

lemma tdValue_eq_map_aux (k : String) (c : Tok → Nat) :
    ∀ L : List Tok,
      (L.map (fun x => (x, c x))).filterMap (tdEntry k)
        = (L.filter (tokHasKey k)).map (fun t => (tokNorm t, c t)) := by
  intro L
  induction L with
  | nil => rfl
  | cons t L ih =>
    cases t with
    | blank => simpa [tdEntry, tokHasKey] using ih
    | pair a b =>
      by_cases hak : (a == k) = true
      · simp [tdEntry, tokHasKey, hak, tokNorm, ih]
      · simp [tdEntry, tokHasKey, hak, ih]

lemma tdValue_eq_map (ts : List Tok) (k : String) :
    tdValue (counterList ts) k
      = ((firstSeen ts).filter (tokHasKey k)).map (fun t => (tokNorm t, ts.count t)) := by
  unfold tdValue counterList
  exact tdValue_eq_map_aux k (fun t => ts.count t) (firstSeen ts)

lemma tdValue_freq_sum (ts : List Tok) (k : String) :
    ((tdValue (counterList ts) k).map Prod.snd).sum = ts.countP (tokHasKey k) := by
  rw [tdValue_eq_map, List.map_map]
  have h1 : (Prod.snd ∘ fun t => (tokNorm t, ts.count t)) = fun t => ts.count t := rfl
  rw [h1]
  exact fs_countSum (tokHasKey k) ts

lemma tdValue_count (ts : List Tok) (k b : String) (c : Nat)
    (h : (b, c) ∈ tdValue (counterList ts) k) : c = ts.count (Tok.pair k b) := by
  rw [tdValue_eq_map] at h
  obtain ⟨t, ht, hbc⟩ := List.mem_map.mp h
  have htk := (List.mem_filter.mp ht).2
  cases t with
  | blank => simp [tokHasKey] at htk
  | pair a b' =>
    have hak : a = k := by simpa [tokHasKey] using htk
    have hb : b' = b := by
      have := congrArg Prod.fst hbc
      simpa [tokNorm] using this
    have hc : ts.count (Tok.pair a b') = c := by
      have := congrArg Prod.snd hbc
      simpa using this
    rw [← hc, hak, hb]

lemma mem_filter_tokHasKey (ts : List Tok) (k : String) (x : Tok)
    (hx : x ∈ ts.filter (tokHasKey k)) : ∃ b, x = Tok.pair k b := by
  have h := (List.mem_filter.mp hx).2
  cases x with
  | blank => simp [tokHasKey] at h
  | pair a b =>
    have : a = k := by simpa [tokHasKey] using h
    exact ⟨b, by rw [this]⟩

lemma filter_map_normFor (k : String) : ∀ ts : List Tok,
    (ts.filter (tokHasKey k)).map tokNorm = ts.filterMap (normFor k) := by
  intro ts
  induction ts with
  | nil => rfl
  | cons t ts ih =>
    cases t with
    | blank => simpa [tokHasKey, normFor] using ih
    | pair a b =>
      by_cases hak : (a == k) = true
      · simp [tokHasKey, normFor, hak, ih, tokNorm]
      · simp [tokHasKey, normFor, hak, ih]

lemma tdValue_fst_order (ts : List Tok) (k : String) :
    (tdValue (counterList ts) k).map Prod.fst = firstSeen (ts.filterMap (normFor k)) := by
  rw [tdValue_eq_map, List.map_map]
  have h1 : (Prod.fst ∘ fun t => (tokNorm t, ts.count t)) = tokNorm := rfl
  rw [h1, ← fs_filter]
  rw [fs_map tokNorm (ts.filter (tokHasKey k)) ?hinj]
  · rw [filter_map_normFor]
  case hinj =>
    intro x hx y hy hxy
    obtain ⟨bx, rfl⟩ := mem_filter_tokHasKey ts k x hx
    obtain ⟨by', rfl⟩ := mem_filter_tokHasKey ts k y hy
    simpa [tokNorm] using congrArg (Tok.pair k) (by simpa [tokNorm] using hxy)

lemma tdValue_ne_nil (cnt : List (Tok × Nat)) (k : String) (hk : k ∈ tdKeys cnt)
    (hne : k ≠ "\n") : tdValue cnt k ≠ [] := by
  unfold tdKeys at hk
  rw [fs_mem] at hk
  obtain ⟨p, hp, hkey⟩ := List.mem_map.mp hk
  obtain ⟨t, c⟩ := p
  cases t with
  | blank => exact absurd (by simpa [keyStr] using hkey.symm) hne
  | pair a b =>
    have hak : a = k := by simpa [keyStr] using hkey
    have hmem : (b, c) ∈ tdValue cnt k := by
      refine List.mem_filterMap.mpr ⟨(Tok.pair a b, c), hp, ?_⟩
      simp [tdEntry, hak]
    exact List.ne_nil_of_mem hmem

lemma translation_dict_mem (ts : List Tok) (k : String) (l : List (String × Nat))
    (h : (k, l) ∈ translation_dict ts) :
    k ∈ tdKeys (counterList ts) ∧ l = tdValue (counterList ts) k := by
  unfold translation_dict at h
  obtain ⟨k', hk', heq⟩ := List.mem_map.mp h
  rw [Prod.ext_iff] at heq
  obtain ⟨h1, h2⟩ := heq
  simp only at h1 h2
  subst h1
  exact ⟨hk', h2.symm⟩

lemma dictLookup_mem {α : Type} (d : List (String × α)) (k : String) (v : α)
    (h : dictLookup d k = some v) : (k, v) ∈ d := by
  unfold dictLookup at h
  rw [Option.map_eq_some'] at h
  obtain ⟨p, hp, hv⟩ := h
  have hm := List.mem_of_find?_eq_some hp
  have hpred := List.find?_some hp
  simp only [beq_iff_eq] at hpred
  have : p = (k, v) := by
    obtain ⟨p1, p2⟩ := p
    simp only at hv hpred
    rw [hpred, hv]
  rwa [this] at hm

/-! ## The Python max with key: first maximal element wins -/

lemma foldlMax_spec :
    ∀ (xs : List (String × Nat)) (x : String × Nat),
      (xs.foldl (fun b y => if b.2 < y.2 then y else b) x) ∈ x :: xs ∧
      (∀ y ∈ x :: xs, y.2 ≤ (xs.foldl (fun b y => if b.2 < y.2 then y else b) x).2) ∧
      (x :: xs).find? (fun y => decide ((xs.foldl (fun b y => if b.2 < y.2 then y else b) x).2 ≤ y.2))
        = some (xs.foldl (fun b y => if b.2 < y.2 then y else b) x) := by
  intro xs
  induction xs with
  | nil =>
    intro x
    refine ⟨List.mem_cons_self x [], ?_, ?_⟩
    · intro y hy
      rcases List.mem_cons.mp hy with rfl | h
      · exact le_refl _
      · simp at h
    · simp [List.find?_cons]
  | cons y ys ih =>
    intro x
    by_cases hlt : x.2 < y.2
    · have hstep : (y :: ys).foldl (fun b y => if b.2 < y.2 then y else b) x
          = ys.foldl (fun b y => if b.2 < y.2 then y else b) y := by
        simp [List.foldl_cons, if_pos hlt]
      obtain ⟨hmem, hbound, hfind⟩ := ih y
      rw [hstep]
      refine ⟨List.mem_cons_of_mem x hmem, ?_, ?_⟩
      · intro z hz
        rcases List.mem_cons.mp hz with rfl | hz'
        · exact le_of_lt (lt_of_lt_of_le hlt (hbound y (List.mem_cons_self y ys)))
        · exact hbound z hz'
      · rw [List.find?_cons]
        have hx2 : ¬ ((ys.foldl (fun b y => if b.2 < y.2 then y else b) y).2 ≤ x.2) := by
          have := hbound y (List.mem_cons_self y ys)
          omega
        simp only [decide_eq_false hx2]
        exact hfind
    · have hstep : (y :: ys).foldl (fun b y => if b.2 < y.2 then y else b) x
          = ys.foldl (fun b y => if b.2 < y.2 then y else b) x := by
        simp [List.foldl_cons, if_neg hlt]
      obtain ⟨hmem, hbound, hfind⟩ := ih x
      rw [hstep]
      set r := ys.foldl (fun b y => if b.2 < y.2 then y else b) x with hr
      refine ⟨?_, ?_, ?_⟩
      · rcases List.mem_cons.mp hmem with h | h
        · exact h ▸ List.mem_cons_self x (y :: ys)
        · exact List.mem_cons_of_mem x (List.mem_cons_of_mem y h)
      · intro z hz
        rcases List.mem_cons.mp hz with hzx | hz'
        · rw [hzx]
          exact hbound x (List.mem_cons_self x ys)
        · rcases List.mem_cons.mp hz' with hzy | hz''
          · rw [hzy]
            have hx := hbound x (List.mem_cons_self x ys)
            omega
          · exact hbound z (List.mem_cons_of_mem x hz'')
      · rw [List.find?_cons] at hfind ⊢
        by_cases hrx : r.2 ≤ x.2
        · simp only [decide_eq_true hrx] at hfind ⊢
          exact hfind
        · simp only [decide_eq_false hrx] at hfind ⊢
          rw [List.find?_cons]
          have hry : ¬ (r.2 ≤ y.2) := by
            have hx := hbound x (List.mem_cons_self x ys)
            omega
          simp only [decide_eq_false hry]
          exact hfind

lemma pyMaxBy_spec (l : List (String × Nat)) (hl : l ≠ []) :
    ∃ c, pyMaxBy l = some c ∧ c ∈ l ∧ (∀ y ∈ l, y.2 ≤ c.2) ∧
      l.find? (fun y => decide (c.2 ≤ y.2)) = some c := by
  match l, hl with
  | x :: xs, _ =>
    obtain ⟨hmem, hbound, hfind⟩ := foldlMax_spec xs x
    exact ⟨_, rfl, hmem, hbound, hfind⟩

/-! ## Totality of the normalizer on well-formed records -/

lemma dictLookup_value_ne_nil (ts : List Tok) (s : String) (l : List (String × Nat))
    (h : dictLookup (translation_dict ts) s = some l) (hs : s ≠ "\n") : l ≠ [] := by
  have hmem := dictLookup_mem _ _ _ h
  obtain ⟨hk, hv⟩ := translation_dict_mem ts s l hmem
  rw [hv]
  exact tdValue_ne_nil _ s hk hs

lemma normalizeLine_isSome (ts : List Tok) (t : DevTok)
    (ht : ∀ s g p, t = DevTok.record s g p → s ≠ "\n") :
    (normalizeLine (translation_dict ts) t).isSome = true := by
  cases t with
  | blank => rfl
  | record s g p =>
    have hs : s ≠ "\n" := ht s g p rfl
    simp only [normalizeLine]
    cases hl : dictLookup (translation_dict ts) s with
    | none => rfl
    | some l =>
      have hne := dictLookup_value_ne_nil ts s l hl hs
      rcases l with _ | ⟨a, _ | ⟨b, rest⟩⟩
      · exact absurd rfl hne
      · rfl
      · simp [pyMaxBy]

lemma normalizeList_length (ts : List Tok) (input : List DevTok)
    (h : ∀ s g p, DevTok.record s g p ∈ input → s ≠ "\n") :
    ∃ out, normalizeList (translation_dict ts) input = some out ∧
      out.length = input.length := by
  induction input with
  | nil => exact ⟨[], rfl, rfl⟩
  | cons t rest ih =>
    obtain ⟨out, ho, hlen⟩ := ih (fun s g p hm => h s g p (List.mem_cons_of_mem t hm))
    have hsome := normalizeLine_isSome ts t
      (fun s g p htr => h s g p (htr ▸ List.mem_cons_self t rest))
    obtain ⟨r, hr⟩ := Option.isSome_iff_exists.mp hsome
    refine ⟨r :: out, ?_, by simp [hlen]⟩
    simp [normalizeList, hr, ho]

/-! ## Claim C2: ambiguous forms take the most frequent candidate, first seen wins -/

/-- C2: for every non-standard form whose candidate list in the translation
table has at least two entries, normalize emits strategy A and predicts the
candidate chosen by Python max, which carries the maximum recorded frequency
among the candidates and is the first candidate of the list (first-seen in
table-construction order) attaining that maximum. -/
theorem c2_ambiguous_argmax (ts : List Tok) (s g p : String) (l : List (String × Nat))
    (c : String × Nat)
    (hl : dictLookup (translation_dict ts) s = some l)
    (h2 : 2 ≤ l.length)
    (hc : pyMaxBy l = some c) :
    normalizeLine (translation_dict ts) (DevTok.record s g p)
        = some (OutRec.record "A" s c.1 g p) ∧
    c ∈ l ∧ (∀ y ∈ l, y.2 ≤ c.2) ∧
    l.find? (fun y => decide (c.2 ≤ y.2)) = some c := by
  have hne : l ≠ [] := by
    intro h
    rw [h] at h2
    simp at h2
  obtain ⟨c', hc', hmem, hbound, hfind⟩ := pyMaxBy_spec l hne
  have hcc : c' = c := by
    rw [hc'] at hc
    exact Option.some.inj hc
  subst hcc
  refine ⟨?_, hmem, hbound, hfind⟩
  rcases l with _ | ⟨a, _ | ⟨b, rest⟩⟩
  · exact absurd rfl hne
  · simp at h2
  · simp only [normalizeLine, hl]
    rw [hc']
    rfl

/-- C2 witness: with training pairs viiu/viel then viiu/viele (a frequency
tie), the ambiguous strategy picks the first-seen candidate viel. -/
theorem c2_witness :
    dictLookup (translation_dict [Tok.pair "viiu" "viel", Tok.pair "viiu" "viele"]) "viiu"
        = some [("viel", 1), ("viele", 1)] ∧
    pyMaxBy [("viel", 1), ("viele", 1)] = some ("viel", 1) ∧
    normalizeLine (translation_dict [Tok.pair "viiu" "viel", Tok.pair "viiu" "viele"])
        (DevTok.record "viiu" "viel" "X")
      = some (OutRec.record "A" "viiu" "viel" "viel" "X") :=
  ⟨by decide, by decide,
    (c2_ambiguous_argmax [Tok.pair "viiu" "viel", Tok.pair "viiu" "viele"] "viiu" "viel" "X"
      [("viel", 1), ("viele", 1)] ("viel", 1) (by decide) (by decide) (by decide)).1⟩

/-! ## Claim C3: unseen forms fall back to identity under strategy N -/

/-- C3: for every non-standard form absent from the translation table,
normalize emits strategy N with the non-standard form itself as the predicted
normalization; the absent key is handled, not an error. -/
theorem c3_new_identity (ts : List Tok) (s g p : String)
    (h : dictLookup (translation_dict ts) s = none) :
    normalizeLine (translation_dict ts) (DevTok.record s g p)
      = some (OutRec.record "N" s s g p) := by
  simp only [normalizeLine, h]

/-- C3 witness: with an empty training corpus every form is unseen and is
returned unchanged under strategy N. -/
theorem c3_witness :
    dictLookup (translation_dict []) "x" = none ∧
    normalizeLine (translation_dict []) (DevTok.record "x" "g" "P")
      = some (OutRec.record "N" "x" "x" "g" "P") :=
  ⟨by decide, c3_new_identity [] "x" "g" "P" (by decide)⟩

/-! ## Claim C4: shape of the built translation table -/

/-- C4 counterexample: a blank sentence-boundary line in the training data
creates the key consisting of a newline character in the translation table,
and that key is mapped to an empty candidate list, so it is not true that
every key present maps to a non-empty candidate list. -/
theorem c4_counterexample :
    translation_dict [Tok.pair "a" "b", Tok.blank] = [("a", [("b", 1)]), ("\n", [])] ∧
    ("\n", ([] : List (String × Nat))) ∈ translation_dict [Tok.pair "a" "b", Tok.blank] := by
  constructor
  · decide
  · decide

/-- C4 amended: every key of the built translation table other than the
newline-string key produced by blank sentinels maps to a non-empty candidate
list; for every key the candidate frequencies sum to the number of training
occurrences of that surface form, each candidate's frequency is the total
multiplicity of its (non-standard, normalization) pair in training (duplicate
identical pairs accumulate into one entry), the candidates are pairwise
distinct, and they appear in first-observed order. -/
theorem c4_amended (ts : List Tok) (k : String) (l : List (String × Nat))
    (h : (k, l) ∈ translation_dict ts) :
    (k ≠ "\n" → l ≠ []) ∧
    ((l.map Prod.snd).sum = ts.countP (tokHasKey k)) ∧
    (∀ b c, (b, c) ∈ l → c = ts.count (Tok.pair k b)) ∧
    (l.map Prod.fst).Nodup ∧
    l.map Prod.fst = firstSeen (ts.filterMap (normFor k)) := by
  obtain ⟨hk, hv⟩ := translation_dict_mem ts k l h
  subst hv
  refine ⟨fun hne => tdValue_ne_nil _ k hk hne, tdValue_freq_sum ts k,
    fun b c hbc => tdValue_count ts k b c hbc, ?_, tdValue_fst_order ts k⟩
  rw [tdValue_fst_order]
  exact fs_nodup _

/-- C4 witness: on a three-record training list with a duplicated pair, the
frequencies of the single key sum to its three occurrences and the candidates
stand in first-observed order. -/
theorem c4_amended_witness :
    ("viiu", [("viel", 2), ("viele", 1)]) ∈ translation_dict
        [Tok.pair "viiu" "viel", Tok.pair "viiu" "viele", Tok.pair "viiu" "viel"] ∧
    ([("viel", 2), ("viele", 1)].map Prod.snd).sum
      = [Tok.pair "viiu" "viel", Tok.pair "viiu" "viele",
          Tok.pair "viiu" "viel"].countP (tokHasKey "viiu") ∧
    [("viel", 2), ("viele", 1)].map Prod.fst
      = firstSeen ([Tok.pair "viiu" "viel", Tok.pair "viiu" "viele",
          Tok.pair "viiu" "viel"].filterMap (normFor "viiu")) :=
  ⟨by decide,
    (c4_amended _ _ _ (by decide)).2.1,
    (c4_amended _ _ _ (by decide)).2.2.2.2⟩

/-! ## Claim C7: the normalizer emits one record per input record -/

/-- C7: for every training corpus and every input record list whose records
have a non-standard form other than the bare newline string (which parsing of
a real input file cannot produce), normalize succeeds and emits exactly one
output record per input record, blank sentinels included. -/
theorem c7_length_preserved (ts : List Tok) (input : List DevTok)
    (h : ∀ s g p, DevTok.record s g p ∈ input → s ≠ "\n") :
    ∃ out, normalize_records ts input = some out ∧ out.length = input.length := by
  unfold normalize_records
  exact normalizeList_length ts input h

/-- C7 witness: a two-record input (one token, one blank sentinel) yields
exactly two output records. -/
theorem c7_witness :
    (normalize_records [] [DevTok.record "a" "b" "c", DevTok.blank]).map List.length
      = some 2 := by
  obtain ⟨out, h1, h2⟩ := c7_length_preserved [] [DevTok.record "a" "b" "c", DevTok.blank]
    (by
      intro s g p hm
      rcases List.mem_cons.mp hm with heq | hm'
      · cases heq
        decide
      · rcases List.mem_cons.mp hm' with heq | hm''
        · cases heq
        · simp at hm'')
  rw [h1]
  simp [h2]

/-! ## Inversion of one alignment step -/

lemma alignLoop_cons_inv (ps : List PTok) (w : String) (ws : List String) (i : Nat)
    (l : List CTok) (h4 : (pySplit w).length ≤ 4)
    (h : alignLoop ps (w :: ws) i = some l) :
    ∃ x l' i', l = x :: l' ∧ alignLoop ps ws i' = some l' ∧
      ((pySplit w).length = 0 → x = CTok.newline) := by
  simp only [alignLoop] at h
  split at h
  next h0 =>
    rw [Option.map_eq_some'] at h
    obtain ⟨l', hl', hl⟩ := h
    exact ⟨CTok.newline, l', i + 1, hl.symm, hl', fun _ => rfl⟩
  next h0 =>
    split at h
    next h1 =>
      split at h
      next tc hE =>
        rw [Option.map_eq_some'] at h
        obtain ⟨l', hl', hl⟩ := h
        exact ⟨_, l', i + tc.2, hl.symm, hl', fun hc => absurd hc h0⟩
      next hE =>
        split at h
        next e hG =>
          rw [Option.map_eq_some'] at h
          obtain ⟨l', hl', hl⟩ := h
          exact ⟨_, l', i + 1, hl.symm, hl', fun hc => absurd hc h0⟩
        next hG => exact absurd h (by simp)
    next h1 =>
      split at h
      next h2 =>
        split at h
        next e1 e2 hG1 hG2 =>
          rw [Option.map_eq_some'] at h
          obtain ⟨l', hl', hl⟩ := h
          exact ⟨_, l', i + 2, hl.symm, hl', fun hc => absurd hc h0⟩
        next hG => exact absurd h (by simp)
      next h2 =>
        split at h
        next h3 =>
          split at h
          next e1 e2 e3 hG1 hG2 hG3 =>
            rw [Option.map_eq_some'] at h
            obtain ⟨l', hl', hl⟩ := h
            exact ⟨_, l', i + 3, hl.symm, hl', fun hc => absurd hc h0⟩
          next hG => exact absurd h (by simp)
        next h3 =>
          split at h
          next h4' =>
            split at h
            next e1 e2 e3 e4 hG1 hG2 hG3 hG4 =>
              rw [Option.map_eq_some'] at h
              obtain ⟨l', hl', hl⟩ := h
              exact ⟨_, l', i + 4, hl.symm, hl', fun hc => absurd hc h0⟩
            next hG => exact absurd h (by simp)
          next h4' =>
            exfalso
            omega

/-! ## Length and blank preservation of the alignment loop -/

lemma alignLoop_spec (ps : List PTok) :
    ∀ (orig : List String) (i : Nat) (l : List CTok),
      (∀ w ∈ orig, (pySplit w).length ≤ 4) →
      alignLoop ps orig i = some l →
      l.length = orig.length ∧
      (∀ (j : Nat) (w : String), orig[j]? = some w → (pySplit w).length = 0 →
        l[j]? = some CTok.newline) := by
  intro orig
  induction orig with
  | nil =>
    intro i l _ h
    simp only [alignLoop] at h
    obtain rfl : ([] : List CTok) = l := Option.some.inj h
    refine ⟨rfl, ?_⟩
    intro j w hj
    simp at hj
  | cons w ws ih =>
    intro i l h4 h
    obtain ⟨x, l', i', rfl, hl', hblank⟩ := alignLoop_cons_inv ps w ws i l
      (h4 w (List.mem_cons_self w ws)) h
    obtain ⟨hlen, hbl⟩ := ih i' l' (fun v hv => h4 v (List.mem_cons_of_mem w hv)) hl'
    refine ⟨by simp [hlen], ?_⟩
    intro j v hj hv
    cases j with
    | zero =>
      rw [List.getElem?_cons_zero] at hj
      obtain rfl : w = v := Option.some.inj hj
      rw [List.getElem?_cons_zero, hblank hv]
    | succ n =>
      rw [List.getElem?_cons_succ] at hj ⊢
      exact hbl n v hj hv

/-! ## Claim C1: tags emitted per reference token -/

/-- C1 counterexample: on the single reference token a with a matching tagger
entry, correct_pos emits zero tags for one reference token (the unconditional
slice dropping the last aligned element), so the number of tags emitted does
not equal the number of reference tokens. -/
theorem c1_counterexample :
    correct_pos [PTok.tok "a" "X"] ["a"] = some [] ∧
    List.length ([] : List String) ≠ List.length ["a"] := by
  constructor
  · rfl
  · decide

/-- C1 amended: for every reference token list whose tokens have at most four
whitespace-delimited words and every tagger stream on which alignment
succeeds, correct_pos emits one tag per reference token in order but then
unconditionally discards the final aligned entry, so the number of tags
emitted equals the number of reference tokens minus one; blank sentinels other
than a trailing one produce blank outputs.  The count stated by the claim
holds only for the sentinel-extended list built by extract_sentences. -/
theorem c1_amended (ps : List PTok) (orig : List String) (out : List String)
    (h4 : ∀ w ∈ orig, (pySplit w).length ≤ 4)
    (h : correct_pos ps orig = some out) :
    out.length = orig.length - 1 ∧
    (∀ (j : Nat) (w : String), orig[j]? = some w → (pySplit w).length = 0 →
      j + 1 < orig.length → out[j]? = some "\n") := by
  unfold correct_pos at h
  rw [Option.map_eq_some'] at h
  obtain ⟨l, hl, rfl⟩ := h
  obtain ⟨hlen, hbl⟩ := alignLoop_spec ps orig 0 l h4 hl
  constructor
  · simp [List.length_dropLast, hlen]
  · intro j w hj hw hj1
    have hnl := hbl j w hj hw
    rw [List.getElem?_map, List.dropLast_eq_take, List.getElem?_take,
      if_pos (by omega : j < l.length - 1), hnl]
    rfl

/-- C1 amended witness: two reference tokens (a blank sentinel then a word)
produce exactly one tag, the blank position being a blank output. -/
theorem c1_amended_witness :
    correct_pos [PTok.sent, PTok.tok "a" "X"] ["\n", "a"] = some ["\n"] ∧
    List.length ["\n"] = List.length [("\n" : String), "a"] - 1 ∧
    (["\n"] : List String)[0]? = some "\n" := by
  have h := c1_amended [PTok.sent, PTok.tok "a" "X"] ["\n", "a"] ["\n"] (by decide) (by rfl)
  exact ⟨by rfl, h.1, h.2 0 "\n" rfl (by decide) (by decide)⟩

/-! ## Claim C9: the discarded entry is the sentinel appended by extract_sentences -/

/-- C9: correct_pos returns one tag fewer than its reference token list (the
last aligned element is unconditionally discarded), and on the
sentinel-extended list that extract_sentences leaves behind by in-place
mutation the returned count equals the original token count. -/
theorem c9_trailing_discard (ps : List PTok) (orig : List String) (out : List String)
    (h4 : ∀ w ∈ orig, (pySplit w).length ≤ 4)
    (h : correct_pos ps (extendedTokens orig) = some out) :
    out.length = orig.length ∧ out.length = (extendedTokens orig).length - 1 := by
  have h4' : ∀ w ∈ extendedTokens orig, (pySplit w).length ≤ 4 := by
    intro w hw
    rcases List.mem_append.mp hw with hmem | hmem
    · exact h4 w hmem
    · rw [List.mem_singleton.mp hmem]
      decide
  unfold correct_pos at h
  rw [Option.map_eq_some'] at h
  obtain ⟨l, hl, rfl⟩ := h
  obtain ⟨hlen, -⟩ := alignLoop_spec ps (extendedTokens orig) 0 l h4' hl
  have hext : (extendedTokens orig).length = orig.length + 1 := by simp [extendedTokens]
  constructor
  · simp [List.length_dropLast, hlen, hext]
  · simp [List.length_dropLast, hlen]

/-- C9 witness: one two-word reference token plus the appended sentinel yields
exactly one tag, matching the original count. -/
theorem c9_witness :
    correct_pos [PTok.tok "hasse" "VVFIN", PTok.tok "es" "PPER"]
        (extendedTokens ["hasse es"]) = some ["VVFIN+PPER"] ∧
    List.length ["VVFIN+PPER"] = List.length ["hasse es"] := by
  have h := c9_trailing_discard [PTok.tok "hasse" "VVFIN", PTok.tok "es" "PPER"]
    ["hasse es"] ["VVFIN+PPER"] (by decide) (by rfl)
  exact ⟨by rfl, h.1⟩

/-! ## Claim C5: exception-table entries -/

/-- C5: a single-word reference token matching the exception dictionary makes
the aligner emit that entry's fixed tag for the reference position and advance
the tagger-output cursor by the entry's token-consumption count. -/
theorem c5_exception_entry (ps : List PTok) (ws : List String) (i : Nat)
    (w tag : String) (cnt : Nat)
    (h1 : (pySplit w).length = 1) (h2 : lookupExc w = some (tag, cnt)) :
    alignLoop ps (w :: ws) i
      = (alignLoop ps ws (i + cnt)).map (fun l => CTok.entry w tag :: l) := by
  simp [alignLoop, h1, h2]

/-- C5 witness: the token of three exclamation marks has the exception entry
with tag of sentence-final punctuation and consumption count 3, so the
following reference token is aligned against cursor position 3. -/
theorem c5_witness :
    lookupExc "!!!" = some ("$.", 3) ∧
    alignLoop [PTok.tok "!" "$.", PTok.tok "!" "$.", PTok.tok "!" "$.", PTok.tok "ok" "X"]
        ["!!!", "ok"] 0
      = some [CTok.entry "!!!" "$.", CTok.entry "ok" "X"] := by
  refine ⟨by decide, ?_⟩
  rw [c5_exception_entry _ _ _ _ "$." 3 (by decide) (by decide)]
  rfl

/-! ## Claim C6: multi-word reference tokens merge consecutive tagger entries -/

/-- C6: a reference token of two, three or four whitespace-delimited words
makes the aligner consume exactly that many tagger entries starting at the
cursor, emit their tags joined with a plus sign as the single tag of the
reference position, and advance the cursor by that many entries. -/
theorem c6_multiword_merge (ps : List PTok) (ws : List String) (i : Nat) (w : String) :
    ((pySplit w).length = 2 → ∀ e1 e2 : String × String,
      getEntry ps i = some e1 → getEntry ps (i + 1) = some e2 →
      alignLoop ps (w :: ws) i = (alignLoop ps ws (i + 2)).map
        (fun l => CTok.entry (e1.1 ++ "+" ++ e2.1) (e1.2 ++ "+" ++ e2.2) :: l)) ∧
    ((pySplit w).length = 3 → ∀ e1 e2 e3 : String × String,
      getEntry ps i = some e1 → getEntry ps (i + 1) = some e2 →
      getEntry ps (i + 2) = some e3 →
      alignLoop ps (w :: ws) i = (alignLoop ps ws (i + 3)).map
        (fun l => CTok.entry (e1.1 ++ "+" ++ e2.1 ++ "+" ++ e3.1)
          (e1.2 ++ "+" ++ e2.2 ++ "+" ++ e3.2) :: l)) ∧
    ((pySplit w).length = 4 → ∀ e1 e2 e3 e4 : String × String,
      getEntry ps i = some e1 → getEntry ps (i + 1) = some e2 →
      getEntry ps (i + 2) = some e3 → getEntry ps (i + 3) = some e4 →
      alignLoop ps (w :: ws) i = (alignLoop ps ws (i + 4)).map
        (fun l => CTok.entry (e1.1 ++ "+" ++ e2.1 ++ "+" ++ e3.1 ++ "+" ++ e4.1)
          (e1.2 ++ "+" ++ e2.2 ++ "+" ++ e3.2 ++ "+" ++ e4.2) :: l)) := by
  refine ⟨?_, ?_, ?_⟩
  · intro h2 e1 e2 hG1 hG2
    simp [alignLoop, h2, hG1, hG2]
  · intro h3 e1 e2 e3 hG1 hG2 hG3
    simp [alignLoop, h3, hG1, hG2, hG3]
  · intro h4 e1 e2 e3 e4 hG1 hG2 hG3 hG4
    simp [alignLoop, h4, hG1, hG2, hG3, hG4]

/-- C6 witness: the two-word unit of an auxiliary and a pronoun consumes two
tagger entries and emits their tags joined with a plus sign. -/
theorem c6_witness :
    pySplit "würde ich" = ["würde", "ich"] ∧
    alignLoop [PTok.tok "würde" "VAFIN", PTok.tok "ich" "PPER"] ["würde ich"] 0
      = some [CTok.entry "würde+ich" "VAFIN+PPER"] := by
  refine ⟨by decide, ?_⟩
  rw [(c6_multiword_merge [PTok.tok "würde" "VAFIN", PTok.tok "ich" "PPER"] [] 0
    "würde ich").1 (by decide) ("würde", "VAFIN") ("ich", "PPER") rfl rfl]
  rfl

/-! ## Claim C10: reference tokens of five or more words are silently skipped -/

/-- C10: a reference token of five or more whitespace-delimited words matches
no branch of the alignment loop: no tag is emitted for it, no error is raised,
and the tagger-output cursor is not advanced, so the remaining tokens are
aligned as if the token were absent. -/
theorem c10_five_word_skip (ps : List PTok) (ws : List String) (i : Nat) (w : String)
    (h : 5 ≤ (pySplit w).length) :
    alignLoop ps (w :: ws) i = alignLoop ps ws i := by
  simp only [alignLoop]
  rw [if_neg (by omega), if_neg (by omega), if_neg (by omega), if_neg (by omega),
    if_neg (by omega)]

/-- C10 witness: a five-word reference token is dropped and the next token is
aligned against cursor position 0, the position the skipped token would have
consumed. -/
theorem c10_witness :
    5 ≤ (pySplit "a b c d e").length ∧
    alignLoop [PTok.tok "x" "T"] ["a b c d e", "x"] 0
      = some [CTok.entry "x" "T"] := by
  refine ⟨by decide, ?_⟩
  rw [c10_five_word_skip _ _ _ _ (by decide)]
  rfl

/-! ## Claim C8: empty strategy buckets abort the accuracy calculation -/

lemma accTables_none (c : AccCounts) (h : c.nU = 0 ∨ c.nA = 0 ∨ c.nN = 0) :
    accTables c = none := by
  unfold accTables
  rcases h with h | h | h
  · rw [show accPct c.uLb c.nU = none from if_pos h]
    rfl
  · by_cases hnu : c.nU = 0
    · rw [show accPct c.uLb c.nU = none from if_pos hnu]
      rfl
    · have hsome : accPct c.uLb c.nU = some (round2 ((c.uLb : ℚ) / (c.nU : ℚ) * 100)) :=
        if_neg hnu
      have hnone : accPct c.aLb c.nA = none := if_pos h
      rw [hsome]
      simp only [hnone]
      rfl
  · by_cases hnu : c.nU = 0
    · rw [show accPct c.uLb c.nU = none from if_pos hnu]
      rfl
    · by_cases hna : c.nA = 0
      · have hsome : accPct c.uLb c.nU = some (round2 ((c.uLb : ℚ) / (c.nU : ℚ) * 100)) :=
          if_neg hnu
        have hnone : accPct c.aLb c.nA = none := if_pos hna
        rw [hsome]
        simp only [hnone]
        rfl
      · have h1 : accPct c.uLb c.nU = some (round2 ((c.uLb : ℚ) / (c.nU : ℚ) * 100)) :=
          if_neg hnu
        have h2 : accPct c.aLb c.nA = some (round2 ((c.aLb : ℚ) / (c.nA : ℚ) * 100)) :=
          if_neg hna
        have hnone : accPct c.nLb c.nN = none := if_pos h
        rw [h1]
        simp only [h2, hnone]
        rfl

/-- C8: whenever a strategy bucket (unique, ambiguous or new) counts zero
records in the evaluated split, calculate_accuracies fails (the Python code
raises an uncaught ZeroDivisionError at the first affected division, modelled
here as none) instead of producing a number for that split. -/
theorem c8_zero_bucket_fails (ls : List EvalLine)
    (h : (ls.foldl countLine {}).nU = 0 ∨ (ls.foldl countLine {}).nA = 0 ∨
      (ls.foldl countLine {}).nN = 0) :
    calculate_accuracies ls = none := by
  unfold calculate_accuracies
  exact accTables_none _ h

/-- C8 witness: a split containing a unique-strategy record but no
ambiguous-strategy record makes the accuracy calculation fail. -/
theorem c8_witness :
    ([EvalLine.fields "U" "i" "ich" "ich" "P" "P" "Q" "P\n"].foldl countLine {}).nA = 0 ∧
    calculate_accuracies [EvalLine.fields "U" "i" "ich" "ich" "P" "P" "Q" "P\n"] = none :=
  ⟨by rfl,
    c8_zero_bucket_fails [EvalLine.fields "U" "i" "ich" "ich" "P" "P" "Q" "P\n"]
      (Or.inr (Or.inl (by rfl)))⟩
